import Mathlib

/-!
Verification development for the pyPgSense SQL tooling core.

The definitions below are shallow embeddings, translated from the
TypeScript sources of the repository:

* the statement-boundary scanner `extractSqlStatements` / `pushStatement`
  (SQL CodeLens provider) becomes `scanStep` / `scanAux` / `splitStatements`;
* the heuristic classifier `looksLikeSql` (inlineSql.ts) becomes
  `looksLikeSql`, with a positional specification `LooksLikeSqlSpec`;
* the schema snapshot builder `buildSchemaSnapshot` / `normalizeIdentifier`
  (postgresSqlService.ts) becomes `buildSchemaSnapshot`;
* the snapshot-cache policy `getSchemaSnapshot` / `loadSchema` becomes the
  pure decision function `getSchemaSnapshotDecision` and the transition
  `loadSchemaStep` (JavaScript is single threaded, so the synchronous
  check-and-register section of `getSchemaSnapshot` runs atomically; the
  two-request model `runRequest` reflects that);
* the completion resolver (sqlCompletionProvider.ts) becomes
  `provideCompletion` with hand-rolled deterministic equivalents of its
  regular expressions;
* the validation gate `normalizeForValidation` / `validateSql` becomes
  `normalizeForValidation` / `validateSqlDecision`.

Strings are modelled as `List Char`.  JavaScript `\s` is modelled by the
ASCII whitespace class `isWs`; `undefined` lookups (`source[i+1]`) are
modelled with `Option Char`.
-/

namespace PyPgSense

/-- The single-quote character, `'`. -/
def sq : Char := Char.ofNat 39

/-- The double-quote character, `"`. -/
def dq : Char := Char.ofNat 34

/-- ASCII whitespace, the fragment of JavaScript `\s` relevant here. -/
def isWs (c : Char) : Bool :=
  c == ' ' || c == '\t' || c == '\n' || c == '\r' ||
  c == Char.ofNat 11 || c == Char.ofNat 12

/-- JavaScript regex word characters `[A-Za-z0-9_]` (the `\b` class). -/
def isWordChar (c : Char) : Bool :=
  c.isAlpha || c.isDigit || c == '_'

/-- Characters allowed inside a dollar-quote tag: `[A-Za-z0-9_]`. -/
def isTagChar (c : Char) : Bool :=
  c.isAlpha || c.isDigit || c == '_'

/-- JavaScript `String.prototype.trim` on a char list (ASCII whitespace). -/
def trimWs (l : List Char) : List Char :=
  ((l.dropWhile isWs).reverse.dropWhile isWs).reverse

/-! ## Boundary scanner (`extractSqlStatements`) -/

/-- The mutable state of the statement scanner loop. -/
structure ScanState where
  inSingleQuote : Bool
  inDoubleQuote : Bool
  inLineComment : Bool
  blockCommentDepth : Nat
  dollarTag : Option (List Char)
deriving DecidableEq

/-- The initial scanner state (all flags cleared). -/
def initScanState : ScanState := ⟨false, false, false, 0, none⟩

/-- Body of `readDollarTag`'s cursor loop: collects identifier characters
after the opening `$` until the closing `$`; fails on an invalid character
or end of input. -/
def readTagBody : List Char → Option (List Char)
  | [] => none
  | c :: rest =>
    if c = '$' then some []
    else if isTagChar c then (readTagBody rest).map (fun body => c :: body)
    else none

/-- `readDollarTag(source, start)`: the full tag `$tag$` starting at index
`i`, or `none` when `$` does not open a valid dollar-quote tag. -/
def readDollarTag (cs : List Char) (i : Nat) : Option (List Char) :=
  match cs.drop i with
  | '$' :: rest => (readTagBody rest).map (fun body => '$' :: (body ++ ['$']))
  | _ => none

/-- Scanner transition when no quote, comment or dollar-block is open:
the bottom section of the `extractSqlStatements` loop body.  Returns the
index advance, the next state and whether a statement terminator was
emitted at this character. -/
def scanStepFree (cs : List Char) (i : Nat) (st : ScanState) :
    Nat × ScanState × Bool :=
  let c := cs.getD i ' '
  let nx := cs[i + 1]?
  if c = '-' ∧ nx = some '-' then (2, { st with inLineComment := true }, false)
  else if c = '/' ∧ nx = some '*' then (2, { st with blockCommentDepth := 1 }, false)
  else if c = sq then (1, { st with inSingleQuote := true }, false)
  else if c = dq then (1, { st with inDoubleQuote := true }, false)
  else if c = '$' then
    match readDollarTag cs i with
    | some tag => (tag.length, { st with dollarTag := some tag }, false)
    | none => (1, st, false)
  else if c = ';' then (1, st, true)
  else (1, st, false)

/-- Scanner transition for the quote states and the free section (the part
of the loop body reached when no comment or dollar-block is open). -/
def scanStepQF (cs : List Char) (i : Nat) (st : ScanState) :
    Nat × ScanState × Bool :=
  let c := cs.getD i ' '
  let nx := cs[i + 1]?
  if st.inSingleQuote then
    if c = sq then
      if nx = some sq then (2, st, false)
      else (1, { st with inSingleQuote := false }, false)
    else (1, st, false)
  else if st.inDoubleQuote then
    if c = dq then
      if nx = some dq then (2, st, false)
      else (1, { st with inDoubleQuote := false }, false)
    else (1, st, false)
  else scanStepFree cs i st

/-- One iteration of the `extractSqlStatements` loop at index `i`.  The
returned `Nat` is how far `i` advances (loop increment included); the
`Bool` records whether a statement boundary was emitted (the `;` branch).
An empty stored dollar tag is falsy in JavaScript, hence the `some []`
branch behaves like the tag-free path. -/
def scanStep (cs : List Char) (i : Nat) (st : ScanState) :
    Nat × ScanState × Bool :=
  let c := cs.getD i ' '
  let nx := cs[i + 1]?
  if st.inLineComment then
    if c = '\n' then (1, { st with inLineComment := false }, false)
    else (1, st, false)
  else if 0 < st.blockCommentDepth then
    if c = '/' ∧ nx = some '*' then
      (2, { st with blockCommentDepth := st.blockCommentDepth + 1 }, false)
    else if c = '*' ∧ nx = some '/' then
      (2, { st with blockCommentDepth := st.blockCommentDepth - 1 }, false)
    else (1, st, false)
  else
    match st.dollarTag with
    | some (t0 :: ts) =>
      if List.isPrefixOf (t0 :: ts) (cs.drop i) then
        ((t0 :: ts).length, { st with dollarTag := none }, false)
      else (1, st, false)
    | some [] => scanStepQF cs i st
    | none => scanStepQF cs i st

/-- The scanner loop: returns the list of cut points, each being the index
one past an emitted top-level `;`.  `fuel` bounds the number of
iterations; `cs.length` always suffices because every step advances. -/
def scanAux (cs : List Char) : Nat → Nat → ScanState → List Nat
  | 0, _, _ => []
  | fuel + 1, i, st =>
    if i < cs.length then
      let r := scanStep cs i st
      if r.2.2 then (i + 1) :: scanAux cs fuel (i + r.1) r.2.1
      else scanAux cs fuel (i + r.1) r.2.1
    else []

/-- The trace of (index, state) pairs visited by the scanner loop. -/
def scanTrace (cs : List Char) : Nat → Nat → ScanState → List (Nat × ScanState)
  | 0, _, _ => []
  | fuel + 1, i, st =>
    if i < cs.length then
      (i, st) :: scanTrace cs fuel (i + (scanStep cs i st).1) (scanStep cs i st).2.1
    else []

/-- Cut points of a source text: the segment end indices emitted by the
scanner (each one past a top-level `;`). -/
def cutPoints (cs : List Char) : List Nat :=
  scanAux cs cs.length 0 initScanState

/-- The raw (pre-trim) segments determined by a list of cut points,
starting at `start`; the final segment runs to end of input, mirroring the
unconditional trailing `pushStatement` call. -/
def segmentsFrom (cs : List Char) : Nat → List Nat → List (List Char)
  | start, [] => [cs.drop start]
  | start, c :: rest => (cs.drop start).take (c - start) :: segmentsFrom cs c rest

/-- The raw segments the scanner cuts the source into. -/
def rawSegments (cs : List Char) : List (List Char) :=
  segmentsFrom cs 0 (cutPoints cs)

/-- A scanner state with no quote, comment or dollar-block open (an empty
stored dollar tag is falsy in JavaScript, hence counts as closed). -/
def cleanState (st : ScanState) : Prop :=
  st.inSingleQuote = false ∧ st.inDoubleQuote = false ∧
  st.inLineComment = false ∧ st.blockCommentDepth = 0 ∧
  st.dollarTag.getD [] = []

/-! ## Segment trimming and filtering (`pushStatement` / `hasExecutableSql`) -/

/-- Remove a line comment from one line: everything from the first `--`
(the regex `--.*$` applied per line). -/
def cutLineComment : List Char → List Char
  | [] => []
  | '-' :: '-' :: _ => []
  | c :: rest => c :: cutLineComment rest

/-- The global multiline replacement of `--.*$` by the empty string:
per-line removal of `--` comments. -/
def stripLineComments (l : List Char) : List Char :=
  List.intercalate ['\n'] ((l.splitOn '\n').map cutLineComment)

/-- Find the end of a block comment: the remainder after the first `*/`. -/
def findBlockClose : List Char → Option (List Char)
  | '*' :: '/' :: rest => some rest
  | _ :: rest => findBlockClose rest
  | [] => none

/-- `replace(/\/\*[\s\S]*?\*\//g, '')`: drop each shortest `/* ... */`
span; an unterminated `/*` never matches and is kept verbatim. -/
def stripBlockComments : Nat → List Char → List Char
  | 0, l => l
  | _ + 1, [] => []
  | fuel + 1, '/' :: '*' :: rest =>
    match findBlockClose rest with
    | some rest2 => stripBlockComments fuel rest2
    | none => '/' :: '*' :: rest
  | fuel + 1, c :: rest => c :: stripBlockComments fuel rest

/-- `hasExecutableSql`: after stripping line and block comments, something
other than terminators and whitespace remains. -/
def hasExecutableSql (content : List Char) : Bool :=
  let s1 := stripLineComments content
  let s2 := stripBlockComments s1.length s1
  !(s2.filter (fun c => !(c == ';' || isWs c))).isEmpty

/-- `pushStatement` on one raw segment: trim whitespace, discard empty and
comment-only chunks, otherwise keep the trimmed content. -/
def pushContent (seg : List Char) : Option (List Char) :=
  let content := trimWs seg
  if content.isEmpty then none
  else if hasExecutableSql content then some content
  else none

/-- The statement contents `extractSqlStatements` produces for a source
text (the retained spans, in order). -/
def splitStatements (cs : List Char) : List (List Char) :=
  (rawSegments cs).filterMap pushContent

/-! ## Scanner lemmas -/

theorem readDollarTag_ne_nil {cs : List Char} {i : Nat} {t : List Char}
    (h : readDollarTag cs i = some t) : t ≠ [] := by
  unfold readDollarTag at h
  split at h
  · rcases Option.map_eq_some'.mp h with ⟨body, -, rfl⟩
    simp
  · exact absurd h (by simp)

theorem scanStepFree_delta_pos (cs : List Char) (i : Nat) (st : ScanState) :
    1 ≤ (scanStepFree cs i st).1 := by
  simp only [scanStepFree]
  repeat' split
  all_goals simp_all
  exact List.length_pos.mpr (readDollarTag_ne_nil (by assumption))

theorem scanStepQF_delta_pos (cs : List Char) (i : Nat) (st : ScanState) :
    1 ≤ (scanStepQF cs i st).1 := by
  simp only [scanStepQF]
  repeat' split
  all_goals first
    | exact scanStepFree_delta_pos cs i st
    | simp_all

theorem scanStep_delta_pos (cs : List Char) (i : Nat) (st : ScanState) :
    1 ≤ (scanStep cs i st).1 := by
  simp only [scanStep]
  repeat' split
  all_goals first
    | exact scanStepQF_delta_pos cs i st
    | simp_all

theorem scanStepFree_emit (cs : List Char) (i : Nat) (st : ScanState)
    (h : (scanStepFree cs i st).2.2 = true) : cs.getD i ' ' = ';' := by
  simp only [scanStepFree] at h
  repeat' split at h
  all_goals simp_all

theorem scanStepQF_emit (cs : List Char) (i : Nat) (st : ScanState)
    (h : (scanStepQF cs i st).2.2 = true) :
    st.inSingleQuote = false ∧ st.inDoubleQuote = false ∧ cs.getD i ' ' = ';' := by
  simp only [scanStepQF] at h
  repeat' split at h
  all_goals first
    | (refine ⟨by simp_all, by simp_all, scanStepFree_emit cs i st h⟩)
    | simp_all

theorem scanStep_emit (cs : List Char) (i : Nat) (st : ScanState)
    (h : (scanStep cs i st).2.2 = true) :
    cleanState st ∧ cs.getD i ' ' = ';' := by
  simp only [scanStep] at h
  unfold cleanState
  repeat' split at h
  all_goals first
    | (have hq := scanStepQF_emit cs i st h; simp_all)
    | simp_all

theorem scanAux_mem (cs : List Char) :
    ∀ fuel i st, ∀ c ∈ scanAux cs fuel i st, i < c ∧ c ≤ cs.length := by
  intro fuel
  induction fuel with
  | zero => intro i st c hc; simp [scanAux] at hc
  | succ fuel ih =>
    intro i st c hc
    simp only [scanAux] at hc
    split at hc
    · split at hc
      · rcases List.mem_cons.mp hc with rfl | hc2
        · omega
        · have h1 := ih _ _ c hc2
          have h2 := scanStep_delta_pos cs i st
          omega
      · have h1 := ih _ _ c hc
        have h2 := scanStep_delta_pos cs i st
        omega
    · simp at hc

theorem scanAux_pairwise (cs : List Char) :
    ∀ fuel i st, List.Pairwise (· < ·) (scanAux cs fuel i st) := by
  intro fuel
  induction fuel with
  | zero => intro i st; simp [scanAux]
  | succ fuel ih =>
    intro i st
    simp only [scanAux]
    split
    · split
      · refine List.Pairwise.cons ?_ (ih _ _)
        intro c hc
        have h1 := (scanAux_mem cs fuel _ _ c hc).1
        have h2 := scanStep_delta_pos cs i st
        omega
      · exact ih _ _
    · simp

theorem segmentsFrom_flatten (cs : List Char) :
    ∀ cuts start, (∀ c ∈ cuts, start ≤ c) → List.Pairwise (· ≤ ·) cuts →
      (segmentsFrom cs start cuts).flatten = cs.drop start := by
  intro cuts
  induction cuts with
  | nil => intro start _ _; simp [segmentsFrom]
  | cons c rest ih =>
    intro start hb hp
    have hsc : start ≤ c := hb c (List.mem_cons_self _ _)
    rw [segmentsFrom, List.flatten_cons,
      ih c (List.pairwise_cons.mp hp).1 (List.pairwise_cons.mp hp).2]
    have h2 : cs.drop c = (cs.drop start).drop (c - start) := by
      rw [List.drop_drop]
      congr 1
      omega
    rw [h2, List.take_append_drop]

theorem scanAux_cut_traced (cs : List Char) :
    ∀ fuel i st, ∀ c ∈ scanAux cs fuel i st,
      ∃ st2, (c - 1, st2) ∈ scanTrace cs fuel i st ∧ cleanState st2 ∧
        cs[c - 1]? = some ';' := by
  intro fuel
  induction fuel with
  | zero => intro i st c hc; simp [scanAux] at hc
  | succ fuel ih =>
    intro i st c hc
    simp only [scanAux] at hc
    split at hc
    case isTrue hlen =>
      rw [scanTrace, if_pos hlen]
      split at hc
      case isTrue hemit =>
        rcases List.mem_cons.mp hc with rfl | hc2
        · refine ⟨st, ?_, (scanStep_emit cs i st hemit).1, ?_⟩
          · have he : i + 1 - 1 = i := rfl
            rw [he]
            exact List.mem_cons_self _ _
          · have hch := (scanStep_emit cs i st hemit).2
            have h1 : cs[i]? = some cs[i] := List.getElem?_eq_getElem hlen
            have h2 : cs.getD i ' ' = cs[i] := by
              rw [List.getD_eq_getElem?_getD, h1]
              rfl
            have he : i + 1 - 1 = i := rfl
            rw [he, h1, ← h2, hch]
        · obtain ⟨st2, hmem, hcl, hch⟩ := ih _ _ c hc2
          exact ⟨st2, List.mem_cons_of_mem _ hmem, hcl, hch⟩
      case isFalse =>
        obtain ⟨st2, hmem, hcl, hch⟩ := ih _ _ c hc
        exact ⟨st2, List.mem_cons_of_mem _ hmem, hcl, hch⟩
    case isFalse => simp at hc

theorem boundaryScannerPartition (cs : List Char) :
    (rawSegments cs).flatten = cs
    ∧ List.Pairwise (· < ·) (cutPoints cs)
    ∧ (∀ c ∈ cutPoints cs, c ≤ cs.length)
    ∧ ∀ c ∈ cutPoints cs,
        ∃ st, (c - 1, st) ∈ scanTrace cs cs.length 0 initScanState ∧
          cleanState st ∧ cs[c - 1]? = some ';' := by
  refine ⟨?_, scanAux_pairwise cs _ _ _,
    fun c hc => (scanAux_mem cs _ _ _ c hc).2,
    fun c hc => scanAux_cut_traced cs _ _ _ c hc⟩
  have hj := segmentsFrom_flatten cs (cutPoints cs) 0 (fun c _ => Nat.zero_le c)
    ((scanAux_pairwise cs _ _ _).imp (fun h => le_of_lt h))
  simpa [rawSegments] using hj

/-! ## Statement-splitting examples (spec §8) -/

/-- The spec example with a line comment containing a terminator. -/
def exComment : List Char := "SELECT 1; -- a;b\nSELECT 2;".data

/-- The spec example with a terminator inside a quoted literal. -/
def exQuoted : List Char := "SELECT ".data ++ sq :: "a;b".data ++ sq :: ";".data

/-- The spec example with a terminator inside a dollar-quoted block. -/
def exDollar : List Char := "DO $$ BEGIN SELECT 1; END $$;".data

theorem splitStatements_comment_counterexample :
    splitStatements exComment ≠ ["SELECT 1;".data, "SELECT 2;".data] := by
  decide

theorem splitStatements_examples :
    splitStatements exComment = ["SELECT 1;".data, "-- a;b\nSELECT 2;".data]
    ∧ splitStatements exQuoted = [exQuoted]
    ∧ splitStatements exDollar = [exDollar] := by
  decide

theorem boundaryScannerPartition_witness :
    (rawSegments ("a;b".data)).flatten = "a;b".data ∧
    ∃ st, (1, st) ∈ scanTrace "a;b".data ("a;b".data).length 0 initScanState ∧
      cleanState st ∧ ("a;b".data)[1]? = some ';' := by
  refine ⟨(boundaryScannerPartition "a;b".data).1, ?_⟩
  have h := (boundaryScannerPartition "a;b".data).2.2.2 2 (by decide)
  simpa using h

/-! ## Schema snapshot (`buildSchemaSnapshot` / `normalizeIdentifier`) -/

/-- One row of the metadata query (`information_schema.columns`). -/
structure SchemaRow where
  table_schema : List Char
  table_name : List Char
  column_name : List Char
deriving DecidableEq

/-- A table entry of the snapshot. -/
structure SchemaTable where
  schema : List Char
  name : List Char
  qualifiedName : List Char
  columns : List (List Char)
deriving DecidableEq

/-- The snapshot: tables in first-seen order plus the two lookup maps
(modelled as ordered association lists) and the refresh timestamp. -/
structure SchemaSnapshot where
  tables : List SchemaTable
  byQualified : List (List Char × SchemaTable)
  byName : List (List Char × List SchemaTable)
  refreshedAt : Nat
deriving DecidableEq

/-- `normalizeIdentifier`: trim, strip all leading and trailing double
quotes (the global replacement of the regex `^"+|"+$`), lowercase. -/
def normalizeIdentifier (identifier : List Char) : List Char :=
  let t := trimWs identifier
  ((((t.dropWhile (fun c => c == dq)).reverse.dropWhile (fun c => c == dq)).reverse).map
    Char.toLower)

/-- `existing.columns.push(column)` guarded by `includes`: append a column
once, in first-seen order, compared verbatim. -/
def addColumn (cols : List (List Char)) (c : List Char) : List (List Char) :=
  if c ∈ cols then cols else cols ++ [c]

/-- Process one metadata row of the `buildSchemaSnapshot` loop: update the
existing table entry or append a fresh one (`byQualified` insertion
order). -/
def addRow (acc : List SchemaTable) (row : SchemaRow) : List SchemaTable :=
  let s := normalizeIdentifier row.table_schema
  let t := normalizeIdentifier row.table_name
  let qn := s ++ '.' :: t
  if acc.any (fun e => e.qualifiedName == qn) then
    acc.map (fun e =>
      if e.qualifiedName = qn then { e with columns := addColumn e.columns row.column_name }
      else e)
  else acc ++ [⟨s, t, qn, [row.column_name]⟩]

/-- Ordered deduplication (JavaScript `Map` key insertion order). -/
def dedupNames (l : List (List Char)) : List (List Char) :=
  l.foldl (fun acc n => if n ∈ acc then acc else acc ++ [n]) []

/-- `buildSchemaSnapshot(rows)`: group rows into tables (the JavaScript
maps alias the same table objects, so both lookup maps are derived from
the final table list here, which matches the observable result). -/
def buildSchemaSnapshot (rows : List SchemaRow) (now : Nat) : SchemaSnapshot :=
  let tabs := rows.foldl addRow []
  { tables := tabs
    byQualified := tabs.map (fun t => (t.qualifiedName, t))
    byName := (dedupNames (tabs.map SchemaTable.name)).map
      (fun n => (n, tabs.filter (fun t => t.name == n)))
    refreshedAt := now }

/-- What actually holds of every stored table entry: schema and table
names come normalized from some input row, the qualified name is their
dotted join, and columns are input column names stored verbatim. -/
def GoodTable (pool : List SchemaRow) (t : SchemaTable) : Prop :=
  (∃ r ∈ pool, t.schema = normalizeIdentifier r.table_schema ∧
    t.name = normalizeIdentifier r.table_name)
  ∧ t.qualifiedName = t.schema ++ '.' :: t.name
  ∧ ∀ c ∈ t.columns, ∃ r ∈ pool, c = r.column_name

theorem mem_addColumn {cols : List (List Char)} {c x : List Char}
    (h : x ∈ addColumn cols c) : x ∈ cols ∨ x = c := by
  unfold addColumn at h
  split at h
  · exact Or.inl h
  · rcases List.mem_append.mp h with h1 | h1
    · exact Or.inl h1
    · simp at h1
      exact Or.inr h1

theorem addRow_good (pool : List SchemaRow) (row : SchemaRow) (hrow : row ∈ pool)
    (acc : List SchemaTable) (hacc : ∀ t ∈ acc, GoodTable pool t) :
    ∀ t ∈ addRow acc row, GoodTable pool t := by
  intro t ht
  simp only [addRow] at ht
  split at ht
  · rcases List.mem_map.mp ht with ⟨e, he, rfl⟩
    split
    case isTrue hq =>
      obtain ⟨hsn, hqn, hcols⟩ := hacc e he
      refine ⟨hsn, hqn, ?_⟩
      intro c hc
      rcases mem_addColumn hc with h1 | rfl
      · exact hcols c h1
      · exact ⟨row, hrow, rfl⟩
    case isFalse => exact hacc e he
  · rcases List.mem_append.mp ht with h1 | h1
    · exact hacc t h1
    · simp at h1
      subst h1
      refine ⟨⟨row, hrow, rfl, rfl⟩, rfl, ?_⟩
      intro c hc
      simp at hc
      subst hc
      exact ⟨row, hrow, rfl⟩

theorem foldl_addRow_good (pool : List SchemaRow) :
    ∀ (rows : List SchemaRow), (∀ r ∈ rows, r ∈ pool) →
      ∀ (acc : List SchemaTable), (∀ t ∈ acc, GoodTable pool t) →
        ∀ t ∈ rows.foldl addRow acc, GoodTable pool t := by
  intro rows
  induction rows with
  | nil => intro _ acc hacc t ht; exact hacc t ht
  | cons r rest ih =>
    intro hsub acc hacc t ht
    simp only [List.foldl_cons] at ht
    exact ih (fun x hx => hsub x (List.mem_cons_of_mem _ hx)) _
      (addRow_good pool r (hsub r (List.mem_cons_self _ _)) acc hacc) t ht

theorem snapshotNormalization_counterexample :
    (buildSchemaSnapshot [⟨"Public".data, "\"Users\"".data, "ID".data⟩] 0).tables
      = [⟨"public".data, "users".data, "public.users".data, ["ID".data]⟩]
    ∧ normalizeIdentifier "ID".data ≠ "ID".data := by
  decide

theorem snapshotNormalization_amended (rows : List SchemaRow) (now : Nat) :
    ∀ t ∈ (buildSchemaSnapshot rows now).tables, GoodTable rows t := by
  intro t ht
  simp only [buildSchemaSnapshot] at ht
  exact foldl_addRow_good rows rows (fun r hr => hr) [] (by simp) t ht

theorem snapshotNormalization_amended_witness :
    GoodTable [⟨"Public".data, "Users".data, "id".data⟩]
      ⟨"public".data, "users".data, "public.users".data, ["id".data]⟩ :=
  snapshotNormalization_amended [⟨"Public".data, "Users".data, "id".data⟩] 0
    ⟨"public".data, "users".data, "public.users".data, ["id".data]⟩ (by decide)

/-! ## Snapshot cache policy (`getSchemaSnapshot` / `loadSchema`) -/

/-- The snapshot TTL, 5 minutes in milliseconds. -/
def schemaCacheTtlMs : Nat := 5 * 60 * 1000

/-- The cache fields of `PostgresSqlService` relevant to the snapshot:
`schemaCache`, `schemaRefreshInFlight` (modelled by a token identifying
the shared promise) and `lastSchemaRefreshFailureAt`. -/
structure CacheState where
  schemaCache : Option SchemaSnapshot
  inFlight : Option Nat
  lastFailureAt : Nat
deriving DecidableEq

/-- What the synchronous prefix of `getSchemaSnapshot` decides: return the
fresh cache, await the in-flight refresh, return absent under backoff
(without any I/O), or start a refresh (the only alternative that issues a
metadata query). -/
inductive SnapDecision where
  | cached (snap : SchemaSnapshot)
  | joinInFlight (tok : Nat)
  | backoff
  | startRefresh
deriving DecidableEq

/-- The cache-freshness test of rule 1 (`Date.now() - refreshedAt < TTL`). -/
def cacheFresh (st : CacheState) (now : Nat) : Option SchemaSnapshot :=
  match st.schemaCache with
  | some c => if now - c.refreshedAt < schemaCacheTtlMs then some c else none
  | none => none

/-- The decision logic of `getSchemaSnapshot(forceRefresh, interactive)`,
with the four rules in source order. -/
def getSchemaSnapshotDecision (st : CacheState) (force interactive : Bool)
    (now : Nat) : SnapDecision :=
  if h1 : force = false ∧ (cacheFresh st now).isSome then
    .cached ((cacheFresh st now).get h1.2)
  else if h2 : force = false ∧ st.inFlight.isSome then
    .joinInFlight (st.inFlight.get h2.2)
  else if force = false ∧ interactive = false ∧ st.schemaCache = none ∧
      now - st.lastFailureAt < 30000 then
    .backoff
  else .startRefresh

/-- The `loadSchema` transition: no connection returns the previous cache
unchanged; a successful query replaces the cache with the freshly built
snapshot; a failed query records the failure time and returns the
previous cache.  The function is total: the failure path returns a value
instead of raising. -/
def loadSchemaStep (st : CacheState) (conn : Option (List Char))
    (queryResult : Except (List Char) (List SchemaRow)) (now : Nat) :
    CacheState × Option SchemaSnapshot :=
  match conn with
  | none => (st, st.schemaCache)
  | some _ =>
    match queryResult with
    | .ok rows =>
      let snap := buildSchemaSnapshot rows now
      ({ st with schemaCache := some snap }, some snap)
    | .error _ => ({ st with lastFailureAt := now }, st.schemaCache)

/-- `clearConnection` discards the cached snapshot (and nothing else). -/
def clearConnectionCache (st : CacheState) : CacheState :=
  { st with schemaCache := none }

theorem loadSchema_failure_preserves (st : CacheState) (conn e : List Char)
    (now : Nat) :
    (loadSchemaStep st (some conn) (.error e) now).1.schemaCache = st.schemaCache
    ∧ (loadSchemaStep st (some conn) (.error e) now).1.inFlight = st.inFlight
    ∧ (loadSchemaStep st (some conn) (.error e) now).1.lastFailureAt = now
    ∧ (loadSchemaStep st (some conn) (.error e) now).2 = st.schemaCache :=
  ⟨rfl, rfl, rfl, rfl⟩

theorem loadSchema_success_counterexample :
    ((loadSchemaStep ⟨none, none, 5⟩ (some "db".data)
        (.ok [⟨"public".data, "users".data, "id".data⟩]) 100).1.lastFailureAt = 5)
    ∧ getSchemaSnapshotDecision
        (clearConnectionCache
          (loadSchemaStep ⟨none, none, 5⟩ (some "db".data)
            (.ok [⟨"public".data, "users".data, "id".data⟩]) 100).1)
        false false 130 = .backoff := by
  decide

theorem loadSchema_success_amended (st : CacheState) (conn : List Char)
    (rows : List SchemaRow) (now : Nat) :
    (loadSchemaStep st (some conn) (.ok rows) now).1.schemaCache
        = some (buildSchemaSnapshot rows now)
    ∧ (loadSchemaStep st (some conn) (.ok rows) now).2
        = some (buildSchemaSnapshot rows now)
    ∧ (loadSchemaStep st (some conn) (.ok rows) now).1.lastFailureAt = st.lastFailureAt
    ∧ (loadSchemaStep st (some conn) (.ok rows) now).1.inFlight = st.inFlight :=
  ⟨rfl, rfl, rfl, rfl⟩

theorem snapshotBackoffPolicy :
    (∀ (st : CacheState) (now : Nat), st.schemaCache = none → st.inFlight = none →
      now - st.lastFailureAt < 30000 →
        getSchemaSnapshotDecision st false false now = .backoff
        ∧ getSchemaSnapshotDecision st false true now = .startRefresh)
    ∧ ∀ (st : CacheState) (i : Bool) (now : Nat),
        getSchemaSnapshotDecision st true i now = .startRefresh := by
  constructor
  · intro st now hc hf hb
    constructor
    · simp [getSchemaSnapshotDecision, cacheFresh, hc, hf, hb]
    · simp [getSchemaSnapshotDecision, cacheFresh, hc, hf]
  · intro st i now
    simp [getSchemaSnapshotDecision]

theorem snapshotBackoffPolicy_witness :
    getSchemaSnapshotDecision ⟨none, none, 0⟩ false false 0 = .backoff :=
  (snapshotBackoffPolicy.1 ⟨none, none, 0⟩ 0 rfl rfl (by decide)).1

/-! ## Coalescing of concurrent requests -/

/-- Global state for the two-request scenario: the cache plus the number
of metadata queries started and a fresh-token counter naming in-flight
refreshes. -/
structure ExecState where
  cache : CacheState
  queries : Nat
  nextTok : Nat
deriving DecidableEq

/-- What a caller of `getSchemaSnapshot` ends up holding. -/
inductive ReqOutcome where
  | value (snap : SchemaSnapshot)
  | awaitTok (tok : Nat)
  | absent
deriving DecidableEq

/-- One request's synchronous check-and-register section, which runs
atomically on the JavaScript event loop: decisions other than
`startRefresh` issue no query; `startRefresh` registers a new in-flight
token and counts one metadata query. -/
def runRequest (es : ExecState) (force interactive : Bool) (now : Nat) :
    ExecState × ReqOutcome :=
  match getSchemaSnapshotDecision es.cache force interactive now with
  | .cached c => (es, .value c)
  | .joinInFlight t => (es, .awaitTok t)
  | .backoff => (es, .absent)
  | .startRefresh =>
    ({ cache := { es.cache with inFlight := some es.nextTok },
       queries := es.queries + 1, nextTok := es.nextTok + 1 }, .awaitTok es.nextTok)

theorem snapshotCoalescing (es : ExecState) (now : Nat)
    (hc : es.cache.schemaCache = none) (hf : es.cache.inFlight = none)
    (hb : 30000 ≤ now - es.cache.lastFailureAt) :
    (runRequest (runRequest es false false now).1 false false now).1.queries
        = es.queries + 1
    ∧ (runRequest es false false now).2 = .awaitTok es.nextTok
    ∧ (runRequest (runRequest es false false now).1 false false now).2
        = .awaitTok es.nextTok := by
  have h1 : getSchemaSnapshotDecision es.cache false false now = .startRefresh := by
    simp [getSchemaSnapshotDecision, cacheFresh, hc, hf]
    omega
  have hr1 : runRequest es false false now =
      ({ cache := { es.cache with inFlight := some es.nextTok },
         queries := es.queries + 1, nextTok := es.nextTok + 1 }, .awaitTok es.nextTok) := by
    simp [runRequest, h1]
  have h2 : getSchemaSnapshotDecision { es.cache with inFlight := some es.nextTok }
      false false now = .joinInFlight es.nextTok := by
    simp [getSchemaSnapshotDecision, cacheFresh, hc]
  refine ⟨?_, ?_, ?_⟩
  · rw [hr1]
    simp [runRequest, h2]
  · rw [hr1]
  · rw [hr1]
    simp [runRequest, h2]

theorem snapshotCoalescing_witness :
    (runRequest (runRequest ⟨⟨none, none, 0⟩, 0, 0⟩ false false 30000).1
        false false 30000).1.queries = 1
    ∧ (runRequest ⟨⟨none, none, 0⟩, 0, 0⟩ false false 30000).2 = .awaitTok 0 := by
  have h := snapshotCoalescing ⟨⟨none, none, 0⟩, 0, 0⟩ 30000 rfl rfl (by decide)
  exact ⟨h.1, h.2.1⟩

/-! ## Heuristic classifier (`looksLikeSql`) -/

/-- The global replacement of `\s+` by a single space, character by
character (`prevWs` records whether the previous character was collapsed
whitespace). -/
def collapseWsAux : Bool → List Char → List Char
  | _, [] => []
  | prevWs, c :: rest =>
    if isWs c then
      if prevWs then collapseWsAux true rest
      else ' ' :: collapseWsAux true rest
    else c :: collapseWsAux false rest

/-- `text.replace` of whitespace runs by single spaces. -/
def collapseWs (l : List Char) : List Char := collapseWsAux false l

/-- Boundary test against an optional adjacent character: satisfied at the
ends of the text and next to non-word characters (the regex `\b`). -/
def bOk : Option Char → Bool
  | none => true
  | some p => !isWordChar p

/-- Propositional form of `bOk`. -/
def NonWord (o : Option Char) : Prop := ∀ p, o = some p → isWordChar p = false

/-- The character just before position `i`, with `prev` standing for the
character before the whole of `l`. -/
def charBefore (prev : Option Char) (l : List Char) (i : Nat) : Option Char :=
  if i = 0 then prev else l[i - 1]?

/-- `kw` occurs at position `i` of `l` as a whole word: the characters at
`i` spell `kw` and both neighbours (with `prev` preceding `l`) are
non-word characters or absent. -/
def OccursFrom (kw : List Char) (prev : Option Char) (l : List Char) (i : Nat) : Prop :=
  (l.drop i).take kw.length = kw ∧ NonWord (charBefore prev l i) ∧
    NonWord l[i + kw.length]?

/-- Scan `l` for a whole-word occurrence of `kw`; `prev` is the character
preceding the current suffix (for the left `\b` test). -/
def containsWordAux (kw : List Char) : Option Char → List Char → Bool
  | _, [] => false
  | prev, c :: rest =>
    (bOk prev && kw.isPrefixOf (c :: rest) && bOk (c :: rest)[kw.length]?)
    || containsWordAux kw (some c) rest

/-- The keyword `select` as a char list. -/
def selKw : List Char := "select".data

/-- The keyword `from` as a char list. -/
def fromKw : List Char := "from".data

/-- After a `select` match: the pattern `[\s\S]+\bfrom\b` needs at least
one character before a whole-word `from`. -/
def afterGapFrom : List Char → Bool
  | [] => false
  | d :: drest => containsWordAux fromKw (some d) drest

/-- Scan for the pattern `\bselect\b[\s\S]+\bfrom\b`. -/
def selectFromAux : Option Char → List Char → Bool
  | _, [] => false
  | prev, c :: rest =>
    (bOk prev && selKw.isPrefixOf (c :: rest) && bOk (c :: rest)[selKw.length]? &&
      afterGapFrom ((c :: rest).drop selKw.length))
    || selectFromAux (some c) rest

/-- Positional form of the `select ... from` pattern: a whole-word
`select` at `i` and a whole-word `from` at `j`, at least one character
apart. -/
def SelectFromProp (prev : Option Char) (l : List Char) : Prop :=
  ∃ i j, OccursFrom selKw prev l i ∧ OccursFrom fromKw prev l j ∧
    i + selKw.length < j

/-- The statement-opening keyword alternatives of `SQL_START_REGEX`. -/
def sqlStartKeywords : List (List Char) :=
  ["select".data, "insert".data, "update".data, "delete".data,
   "with".data, "create".data, "alter".data, "drop".data]

/-- The context keyword alternatives of `SQL_CONTEXT_REGEX`. -/
def sqlContextKeywords : List (List Char) :=
  ["from".data, "into".data, "values".data, "set".data,
   "where".data, "join".data, "table".data, "returning".data]

/-- `looksLikeSql(text)`: collapse whitespace and trim, reject short
texts, require a whole-word opening keyword, and accept given a
whole-word context keyword or a `select ... from` pattern.  The
case-insensitive regex tests are modelled by lowercasing the haystack
(ASCII). -/
def looksLikeSql (text : List Char) : Bool :=
  let normd := trimWs (collapseWs text)
  if normd.length < 10 then false
  else
    let low := normd.map Char.toLower
    if !(sqlStartKeywords.any fun kw => containsWordAux kw none low) then false
    else
      (sqlContextKeywords.any fun kw => containsWordAux kw none low)
      || selectFromAux none low

/-- The specification's characterization of `looksLikeSql`, stated over
whole-word occurrences at explicit positions. -/
def LooksLikeSqlSpec (text : List Char) : Prop :=
  10 ≤ (trimWs (collapseWs text)).length
  ∧ (∃ kw ∈ sqlStartKeywords,
      ∃ i, OccursFrom kw none ((trimWs (collapseWs text)).map Char.toLower) i)
  ∧ ((∃ kw ∈ sqlContextKeywords,
        ∃ i, OccursFrom kw none ((trimWs (collapseWs text)).map Char.toLower) i)
     ∨ SelectFromProp none ((trimWs (collapseWs text)).map Char.toLower))

theorem bOk_iff (o : Option Char) : bOk o = true ↔ NonWord o := by
  cases o <;> simp [bOk, NonWord]

theorem occursFrom_zero (kw : List Char) (prev : Option Char) (c : Char)
    (rest : List Char) :
    OccursFrom kw prev (c :: rest) 0 ↔
      (bOk prev = true ∧ kw.isPrefixOf (c :: rest) = true ∧
        bOk (c :: rest)[kw.length]? = true) := by
  unfold OccursFrom
  rw [bOk_iff, bOk_iff, List.isPrefixOf_iff_prefix, List.prefix_iff_eq_take]
  simp only [List.drop_zero, charBefore, Nat.zero_add]
  constructor
  · rintro ⟨h1, h2, h3⟩
    exact ⟨h2, h1.symm, h3⟩
  · rintro ⟨h1, h2, h3⟩
    exact ⟨h2.symm, h1, h3⟩

theorem occursFrom_succ (kw : List Char) (prev : Option Char) (c : Char)
    (rest : List Char) (i : Nat) :
    OccursFrom kw prev (c :: rest) (i + 1) ↔ OccursFrom kw (some c) rest i := by
  unfold OccursFrom
  have h1 : (c :: rest).drop (i + 1) = rest.drop i := List.drop_succ_cons
  have h2 : charBefore prev (c :: rest) (i + 1) = charBefore (some c) rest i := by
    cases i with
    | zero => simp [charBefore]
    | succ j => simp [charBefore]
  have h3 : (c :: rest)[(i + 1) + kw.length]? = rest[i + kw.length]? := by
    have e1 : (i + 1) + kw.length = (i + kw.length) + 1 := by omega
    rw [e1, List.getElem?_cons_succ]
  rw [h1, h2, h3]

theorem containsWordAux_iff (kw : List Char) (hkw : kw ≠ []) :
    ∀ (l : List Char) (prev : Option Char),
      containsWordAux kw prev l = true ↔ ∃ i, OccursFrom kw prev l i := by
  intro l
  induction l with
  | nil =>
    intro prev
    simp only [containsWordAux]
    constructor
    · intro h
      exact absurd h (by simp)
    · rintro ⟨i, h1, -, -⟩
      simp at h1
      exact (hkw h1).elim
  | cons c rest ih =>
    intro prev
    simp only [containsWordAux, Bool.or_eq_true, Bool.and_eq_true]
    rw [ih (some c)]
    constructor
    · rintro (⟨⟨hb, hp⟩, ha⟩ | ⟨i, hi⟩)
      · exact ⟨0, (occursFrom_zero kw prev c rest).mpr ⟨hb, hp, ha⟩⟩
      · exact ⟨i + 1, (occursFrom_succ kw prev c rest i).mpr hi⟩
    · rintro ⟨i, hi⟩
      cases i with
      | zero =>
        obtain ⟨hb, hp, ha⟩ := (occursFrom_zero kw prev c rest).mp hi
        exact Or.inl ⟨⟨hb, hp⟩, ha⟩
      | succ j => exact Or.inr ⟨j, (occursFrom_succ kw prev c rest j).mp hi⟩

theorem occursFrom_shift (kw : List Char) (l : List Char) (k : Nat) (d : Char)
    (drest : List Char) (hk : l.drop k = d :: drest) (prev : Option Char) (i : Nat) :
    OccursFrom kw (some d) drest i ↔ OccursFrom kw prev l (k + 1 + i) := by
  unfold OccursFrom
  have h1 : l.drop (k + 1 + i) = drest.drop i := by
    have e1 : k + 1 + i = k + (i + 1) := by omega
    rw [e1, ← List.drop_drop, hk, List.drop_succ_cons]
  have h2 : charBefore prev l (k + 1 + i) = charBefore (some d) drest i := by
    have e1 : charBefore prev l (k + 1 + i) = l[k + i]? := by
      simp only [charBefore]
      rw [if_neg (by omega)]
      congr 1
      omega
    rw [e1, ← List.getElem?_drop, hk]
    cases i with
    | zero => simp [charBefore]
    | succ j => simp [charBefore]
  have h3 : l[(k + 1 + i) + kw.length]? = drest[i + kw.length]? := by
    have e1 : (k + 1 + i) + kw.length = k + ((i + kw.length) + 1) := by omega
    rw [e1, ← List.getElem?_drop, hk, List.getElem?_cons_succ]
  rw [h1, h2, h3]

theorem selectFromAux_iff :
    ∀ (l : List Char) (prev : Option Char),
      selectFromAux prev l = true ↔ SelectFromProp prev l := by
  intro l
  induction l with
  | nil =>
    intro prev
    simp only [selectFromAux, SelectFromProp]
    constructor
    · intro h
      exact absurd h (by simp)
    · rintro ⟨i, j, ⟨h1, -, -⟩, -, -⟩
      simp at h1
      exact absurd h1 (by decide)
  | cons c rest ih =>
    intro prev
    simp only [selectFromAux, Bool.or_eq_true, Bool.and_eq_true]
    rw [ih (some c)]
    constructor
    · rintro (⟨⟨⟨hb, hp⟩, ha⟩, hg⟩ | h)
      · have hsel : OccursFrom selKw prev (c :: rest) 0 :=
          (occursFrom_zero selKw prev c rest).mpr ⟨hb, hp, ha⟩
        cases hd : (c :: rest).drop selKw.length with
        | nil =>
          rw [hd] at hg
          exact absurd hg (by simp [afterGapFrom])
        | cons d drest =>
          rw [hd] at hg
          simp only [afterGapFrom] at hg
          obtain ⟨i', hocc⟩ :=
            (containsWordAux_iff fromKw (by decide) drest (some d)).mp hg
          exact ⟨0, selKw.length + 1 + i', hsel,
            (occursFrom_shift fromKw (c :: rest) selKw.length d drest hd prev i').mp hocc,
            by omega⟩
      · obtain ⟨i, j, h1, h2, h3⟩ := h
        exact ⟨i + 1, j + 1, (occursFrom_succ selKw prev c rest i).mpr h1,
          (occursFrom_succ fromKw prev c rest j).mpr h2, by omega⟩
    · rintro ⟨i, j, h1, h2, h3⟩
      cases i with
      | zero =>
        left
        obtain ⟨hb, hp, ha⟩ := (occursFrom_zero selKw prev c rest).mp h1
        refine ⟨⟨⟨hb, hp⟩, ha⟩, ?_⟩
        obtain ⟨j', rfl⟩ : ∃ j', j = selKw.length + 1 + j' := ⟨j - (selKw.length + 1), by omega⟩
        cases hd : (c :: rest).drop selKw.length with
        | nil =>
          obtain ⟨ht, -, -⟩ := h2
          have hnil : (c :: rest).drop (selKw.length + 1 + j') = [] := by
            have e1 : selKw.length + 1 + j' = selKw.length + (1 + j') := by omega
            rw [e1, ← List.drop_drop, hd]
            simp
          rw [hnil] at ht
          simp at ht
          exact absurd ht.symm (by decide)
        | cons d drest =>
          simp only [afterGapFrom]
          exact (containsWordAux_iff fromKw (by decide) drest (some d)).mpr
            ⟨j', (occursFrom_shift fromKw (c :: rest) selKw.length d drest hd prev j').mpr h2⟩
      | succ i' =>
        cases j with
        | zero => omega
        | succ j' =>
          right
          exact ⟨i', j', (occursFrom_succ selKw prev c rest i').mp h1,
            (occursFrom_succ fromKw prev c rest j').mp h2, by omega⟩

theorem looksLikeSql_iff_spec :
    (∀ text : List Char, looksLikeSql text = true ↔ LooksLikeSqlSpec text)
    ∧ looksLikeSql "x = 5".data = false
    ∧ looksLikeSql "SELECT id FROM users WHERE id = 1".data = true := by
  refine ⟨?_, by decide, by decide⟩
  intro text
  have hne1 : ∀ kw ∈ sqlStartKeywords, kw ≠ [] := by decide
  have hne2 : ∀ kw ∈ sqlContextKeywords, kw ≠ [] := by decide
  simp only [looksLikeSql, LooksLikeSqlSpec]
  set low := (trimWs (collapseWs text)).map Char.toLower with hlow
  have hA : (sqlStartKeywords.any fun kw => containsWordAux kw none low) = true
      ↔ ∃ kw ∈ sqlStartKeywords, ∃ i, OccursFrom kw none low i := by
    rw [List.any_eq_true]
    constructor
    · rintro ⟨kw, hkw, h⟩
      exact ⟨kw, hkw, (containsWordAux_iff kw (hne1 kw hkw) low none).mp h⟩
    · rintro ⟨kw, hkw, h⟩
      exact ⟨kw, hkw, (containsWordAux_iff kw (hne1 kw hkw) low none).mpr h⟩
  have hB : (sqlContextKeywords.any fun kw => containsWordAux kw none low) = true
      ↔ ∃ kw ∈ sqlContextKeywords, ∃ i, OccursFrom kw none low i := by
    rw [List.any_eq_true]
    constructor
    · rintro ⟨kw, hkw, h⟩
      exact ⟨kw, hkw, (containsWordAux_iff kw (hne2 kw hkw) low none).mp h⟩
    · rintro ⟨kw, hkw, h⟩
      exact ⟨kw, hkw, (containsWordAux_iff kw (hne2 kw hkw) low none).mpr h⟩
  have hC := selectFromAux_iff low none
  by_cases hlen : (trimWs (collapseWs text)).length < 10
  · rw [if_pos hlen]
    constructor
    · intro h
      exact absurd h (by simp)
    · rintro ⟨h10, -⟩
      exact absurd h10 (by omega)
  · rw [if_neg hlen]
    by_cases hstart : (sqlStartKeywords.any fun kw => containsWordAux kw none low) = true
    · rw [hstart, if_neg (by simp), Bool.or_eq_true]
      constructor
      · rintro (hb | hc)
        · exact ⟨by omega, hA.mp hstart, Or.inl (hB.mp hb)⟩
        · exact ⟨by omega, hA.mp hstart, Or.inr (hC.mp hc)⟩
      · rintro ⟨-, -, hbc⟩
        rcases hbc with hb | hc
        · exact Or.inl (hB.mpr hb)
        · exact Or.inr (hC.mpr hc)
    · have hstart2 : (sqlStartKeywords.any fun kw => containsWordAux kw none low) = false := by
        cases h : sqlStartKeywords.any fun kw => containsWordAux kw none low
        · rfl
        · exact absurd h hstart
      rw [hstart2, if_pos (by simp)]
      constructor
      · intro h
        exact absurd h (by simp)
      · rintro ⟨-, hA2, -⟩
        exact absurd (hA.mpr hA2) hstart

theorem looksLikeSql_iff_spec_witness :
    LooksLikeSqlSpec "SELECT id FROM users WHERE id = 1".data :=
  (looksLikeSql_iff_spec.1 "SELECT id FROM users WHERE id = 1".data).mp
    looksLikeSql_iff_spec.2.2

/-! ## Completion resolver (`provideCompletionItems`) -/

/-- Identifier start characters of the completion regexes: `[A-Za-z_]`. -/
def isIdentStart (c : Char) : Bool := c.isAlpha || c == '_'

/-- Identifier continuation characters: `[A-Za-z0-9_$]`. -/
def isIdentChar (c : Char) : Bool := c.isAlpha || c.isDigit || c == '_' || c == '$'

/-- Greedy identifier token `[A-Za-z_][A-Za-z0-9_$]*`: the token and the
remaining input, or `none`. -/
def takeIdent (l : List Char) : Option (List Char × List Char) :=
  match l with
  | [] => none
  | c :: rest =>
    if isIdentStart c then some (c :: rest.takeWhile isIdentChar, rest.dropWhile isIdentChar)
    else none

/-- Greedy quoted token `"[^"]+"`: the token (quotes included) and the
remaining input, or `none`. -/
def takeQuoted (l : List Char) : Option (List Char × List Char) :=
  match l with
  | [] => none
  | c :: rest =>
    if c = dq then
      match rest.dropWhile (fun x => !(x == dq)) with
      | d :: rest2 =>
        if (rest.takeWhile (fun x => !(x == dq))).isEmpty then none
        else if d = dq then
          some (dq :: (rest.takeWhile (fun x => !(x == dq)) ++ [dq]), rest2)
        else none
      | [] => none
    else none

/-- Case-insensitive literal prefix test (ASCII lowering). -/
def ciPrefix (pat : List Char) (l : List Char) : Bool :=
  List.isPrefixOf pat ((l.take pat.length).map Char.toLower)

/-- The alias token `"?[A-Za-z_][A-Za-z0-9_$]*"?` with its greedy optional
quotes; returns the captured text and the remainder. -/
def aliasTok (l : List Char) : Option (List Char × List Char) :=
  let bare := fun (m : List Char) =>
    (takeIdent m).map (fun p =>
      match p.2 with
      | d :: r2 => if d = dq then (p.1 ++ [dq], r2) else p
      | [] => p)
  match l with
  | c :: rest =>
    if c = dq then
      match (takeIdent rest).map (fun p =>
        match p.2 with
        | d :: r2 => if d = dq then (dq :: (p.1 ++ [dq]), r2) else (dq :: p.1, p.2)
        | [] => (dq :: p.1, p.2)) with
      | some r => some r
      | none => bare l
    else bare l
  | [] => none

/-- The tail `(?:as\s+)?("?[A-Za-z_][A-Za-z0-9_$]*"?)` after the reference:
try the greedy `as` keyword first, fall back to reading the alias
directly. -/
def matchAliasTail (l : List Char) : Option (List Char × List Char) :=
  let asBranch :=
    if ciPrefix "as".data l then
      let l2 := l.drop 2
      if (l2.takeWhile isWs).isEmpty then none
      else aliasTok (l2.dropWhile isWs)
    else none
  match asBranch with
  | some r => some r
  | none => aliasTok l

/-- One reference component: a quoted token or an identifier (the regex
alternation tries the quoted form first). -/
def refToken (l : List Char) : Option (List Char × List Char) :=
  match takeQuoted l with
  | some r => some r
  | none => takeIdent l

/-- Match the body of the alias regex at the current position, after the
leading word boundary: `(from|join)\s+(ref)\s+(as\s+)?(alias)`, where
`ref` is a token with an optional greedy `\s*.\s*` qualified part that is
given up if the rest of the pattern cannot follow it.  Returns the
captures for reference and alias plus the remaining input. -/
def matchFromJoin (l : List Char) : Option (List Char × List Char × List Char) :=
  if ciPrefix "from".data l || ciPrefix "join".data l then
    let l1 := l.drop 4
    if (l1.takeWhile isWs).isEmpty then none
    else
      let l2 := l1.dropWhile isWs
      match refToken l2 with
      | none => none
      | some (p1, r1) =>
        let cont := fun (refCap : List Char) (r : List Char) =>
          if (r.takeWhile isWs).isEmpty then none
          else
            (matchAliasTail (r.dropWhile isWs)).map
              (fun a => (refCap, a.1, a.2))
        let withDot :=
          match r1.dropWhile isWs with
          | '.' :: r2 =>
            match refToken (r2.dropWhile isWs) with
            | some (p2, r3) =>
              some (p1 ++ r1.takeWhile isWs ++ '.' :: r2.takeWhile isWs ++ p2, r3)
            | none => none
          | _ => none
        match withDot with
        | some (refCap, r3) =>
          match cont refCap r3 with
          | some a => some a
          | none => cont p1 r1
        | none => cont p1 r1
  else none

/-- `normalizeIdentifier` applied to each dot-separated part of a
reference, empty parts dropped (`normalizeReference`). -/
def normalizeReference (reference : List Char) : List Char :=
  List.intercalate ['.']
    (((reference.splitOn '.').map normalizeIdentifier).filter (fun p => !p.isEmpty))

/-- The `extractTableAliases` scan: walk the SQL text, trying the
`from`/`join` alias pattern at each word boundary; on a match record
`alias ↦ reference` (later matches shadow earlier ones, as `Map.set`
does) and continue after the match. -/
def extractAliasesAux : Nat → Option Char → List Char →
    List (List Char × List Char) → List (List Char × List Char)
  | 0, _, _, acc => acc
  | _ + 1, _, [], acc => acc
  | fuel + 1, prev, c :: rest, acc =>
    if bOk prev then
      match matchFromJoin (c :: rest) with
      | some (refCap, aliasCap, rest2) =>
        let refN := normalizeReference refCap
        let aliasN := normalizeIdentifier aliasCap
        let acc2 := if !refN.isEmpty && !aliasN.isEmpty then (aliasN, refN) :: acc else acc
        extractAliasesAux fuel aliasCap.getLast? rest2 acc2
      | none => extractAliasesAux fuel (some c) rest acc
    else extractAliasesAux fuel (some c) rest acc

/-- `extractTableAliases(sql)`: the alias map as an association list
(first match of `lookup` is the latest insertion). -/
def extractTableAliases (sql : List Char) : List (List Char × List Char) :=
  extractAliasesAux sql.length none sql []

/-- The qualifier regex at the end of the line prefix:
`([A-Za-z_][A-Za-z0-9_$]*)\.\s*([A-Za-z_][A-Za-z0-9_$]*)?$` matched at
one position (identifier, dot, optional spaces, optional partial
identifier, end of input). -/
def qualifierAt (l : List Char) : Option (List Char × List Char) :=
  match takeIdent l with
  | none => none
  | some (q, r1) =>
    match r1 with
    | '.' :: r2 =>
      let r3 := r2.dropWhile isWs
      match takeIdent r3 with
      | some (p, r4) => if r4.isEmpty then some (q, p) else none
      | none => if r3.isEmpty then some (q, []) else none
    | _ => none

/-- Leftmost match of the qualifier regex (its `$` anchor makes the scan
over start positions exact). -/
def qualifierMatch : List Char → Option (List Char × List Char)
  | [] => none
  | c :: rest =>
    match qualifierAt (c :: rest) with
    | some r => some r
    | none => qualifierMatch rest

/-- The table-position test
`\b(from|join|update|into|table)\s+[\w."$]*$` on the line prefix. -/
def tableContextAt (l : List Char) : Bool :=
  (["from".data, "join".data, "update".data, "into".data, "table".data].any
    fun kw =>
      ciPrefix kw l &&
      (let r := l.drop kw.length
       !(r.takeWhile isWs).isEmpty &&
       (r.dropWhile isWs).all fun c =>
         isWordChar c || c == '.' || c == dq || c == '$'))

/-- Scan for the table-position pattern at any word boundary. -/
def tableContextTest : Option Char → List Char → Bool
  | _, [] => false
  | prev, c :: rest =>
    (bOk prev && tableContextAt (c :: rest)) || tableContextTest (some c) rest

/-- The `select`-clause test `\bselect\s+[\w\W]*$`: a whole-word-started
`select` followed by at least one whitespace character. -/
def selectContextTest : Option Char → List Char → Bool
  | _, [] => false
  | prev, c :: rest =>
    (bOk prev && ciPrefix "select".data (c :: rest) &&
      !(((c :: rest).drop 6).takeWhile isWs).isEmpty)
    || selectContextTest (some c) rest

/-- Ordered union of column lists (JavaScript `Set` insertion order). -/
def setUnion (ls : List (List (List Char))) : List (List Char) :=
  ls.foldl (fun a cols => cols.foldl addColumn a) []

/-- `resolveColumnsForReference`: qualified lookup when the normalized
reference contains a dot, otherwise union of columns across all
same-named tables. -/
def resolveColumnsForReference (s : SchemaSnapshot) (reference : List Char) :
    List (List Char) :=
  let normalized := normalizeReference reference
  if normalized.isEmpty then []
  else if normalized.contains '.' then
    match s.byQualified.lookup normalized with
    | some t => t.columns
    | none => []
  else setUnion (((s.byName.lookup normalized).getD []).map SchemaTable.columns)

/-- All distinct columns across the snapshot (`getAllColumns`). -/
def getAllColumns (s : SchemaSnapshot) : List (List Char) :=
  setUnion (s.tables.map SchemaTable.columns)

/-- The shape of a completion answer: which item set the provider
returns. -/
inductive CompletionKind where
  | keywordsOnly
  | columns (cols : List (List Char))
  | tableList
  | allColumns (cols : List (List Char))
  | keywordsAndTables
deriving DecidableEq

/-- The decision structure of `provideCompletionItems` given the line
prefix, the whole SQL text and the snapshot (or its absence): qualifier
branch first (alias lookup with literal fallback, column items only),
then table position, then `select` clause, then keywords plus tables. -/
def provideCompletion (snap : Option SchemaSnapshot) (sqlText lp : List Char) :
    CompletionKind :=
  match snap with
  | none => .keywordsOnly
  | some s =>
    match qualifierMatch lp with
    | some (q, _) =>
      let aliases := extractTableAliases sqlText
      let qn := normalizeIdentifier q
      let reference := (aliases.lookup qn).getD qn
      .columns (resolveColumnsForReference s reference)
    | none =>
      if tableContextTest none lp then .tableList
      else if selectContextTest none lp then .allColumns (getAllColumns s)
      else .keywordsAndTables

/-- Example metadata rows: table `users` with columns `id`, `email`, and
a distinct table literally named `u` (to separate alias resolution from a
literal lookup). -/
def exRows : List SchemaRow :=
  [⟨"public".data, "users".data, "id".data⟩,
   ⟨"public".data, "users".data, "email".data⟩,
   ⟨"public".data, "u".data, "other".data⟩]

/-- The snapshot built from `exRows`. -/
def exSnap : SchemaSnapshot := buildSchemaSnapshot exRows 0

theorem completionQualifierAlias :
    (∀ (snap : SchemaSnapshot) (sqlText lp q part : List Char),
      qualifierMatch lp = some (q, part) →
        provideCompletion (some snap) sqlText lp =
          .columns (resolveColumnsForReference snap
            (((extractTableAliases sqlText).lookup (normalizeIdentifier q)).getD
              (normalizeIdentifier q))))
    ∧ provideCompletion (some exSnap) "SELECT u.id FROM users u".data
        "SELECT u.".data = .columns ["id".data, "email".data] := by
  constructor
  · intro snap sqlText lp q part hq
    simp [provideCompletion, hq]
  · decide

theorem completionQualifierAlias_witness :
    provideCompletion (some exSnap) "SELECT u.id FROM users u".data
        "SELECT u.".data
      = .columns (resolveColumnsForReference exSnap
          (((extractTableAliases "SELECT u.id FROM users u".data).lookup
              (normalizeIdentifier "u".data)).getD (normalizeIdentifier "u".data))) :=
  completionQualifierAlias.1 exSnap "SELECT u.id FROM users u".data
    "SELECT u.".data "u".data [] (by decide)

/-! ## Validation gate (`normalizeForValidation` / `validateSql`) -/

/-- The replacement of the anchored regex `;\s*$` by the empty string:
remove one trailing `;` together with any whitespace after it. -/
def removeTrailingSemi (l : List Char) : List Char :=
  match l.reverse.dropWhile isWs with
  | c :: rest => if c = ';' then rest.reverse else l
  | [] => l

/-- `normalizeForValidation(sql)`: trim; reject empty; strip one trailing
terminator and trim; reject empty; reject anything still containing a
`;`; otherwise the statement to prepare. -/
def normalizeForValidation (sql : List Char) : Option (List Char) :=
  let n1 := trimWs sql
  if n1.isEmpty then none
  else
    let n2 := trimWs (removeTrailingSemi n1)
    if n2.isEmpty then none
    else if n2.contains ';' then none
    else some n2

/-- The pre-I/O decision of `validateSql`: `skippedNoStatement` is the
early `{ kind: 'skipped' }` return taken before any connection lookup or
query; `proceed` carries the statement that would be prepared. -/
inductive ValidationDecision where
  | skippedNoStatement
  | proceed (statement : List Char)
deriving DecidableEq

/-- The statement gate of `validateSql`. -/
def validateSqlDecision (sql : List Char) : ValidationDecision :=
  match normalizeForValidation sql with
  | none => .skippedNoStatement
  | some s => .proceed s

theorem validationSingleStatementOnly (sql : List Char) :
    ((trimWs sql).isEmpty = true ∨ ';' ∈ trimWs (removeTrailingSemi (trimWs sql)) →
      validateSqlDecision sql = .skippedNoStatement)
    ∧ ∀ s, validateSqlDecision sql = .proceed s → ';' ∉ s := by
  constructor
  · intro h
    simp only [validateSqlDecision, normalizeForValidation]
    rcases h with h | h
    · rw [if_pos h]
    · by_cases h1 : (trimWs sql).isEmpty
      · rw [if_pos h1]
      · rw [if_neg h1]
        by_cases h2 : (trimWs (removeTrailingSemi (trimWs sql))).isEmpty
        · rw [if_pos h2]
        · rw [if_neg h2, if_pos (show
            (trimWs (removeTrailingSemi (trimWs sql))).contains ';' = true by
              simpa using h)]
  · intro s hs
    by_cases h1 : (trimWs sql).isEmpty
    · simp [validateSqlDecision, normalizeForValidation, h1] at hs
    · by_cases h2 : (trimWs (removeTrailingSemi (trimWs sql))).isEmpty
      · simp [validateSqlDecision, normalizeForValidation, h1, h2] at hs
      · by_cases h3 : ';' ∈ trimWs (removeTrailingSemi (trimWs sql))
        · simp [validateSqlDecision, normalizeForValidation, h1, h2, h3] at hs
        · simp [validateSqlDecision, normalizeForValidation, h1, h2, h3] at hs
          subst hs
          exact h3

theorem validationSingleStatementOnly_witness :
    validateSqlDecision "SELECT 1; SELECT 2".data
      = ValidationDecision.skippedNoStatement :=
  (validationSingleStatementOnly "SELECT 1; SELECT 2".data).1 (Or.inr (by decide))

end PyPgSense
